import Mathlib

/-!
Verification development for the crabxss scanner (src/main.rs).

The program fetches each target URL, parses its query string with the url
crate's query_pairs(), percent-decodes each value once more with
urlencoding::decode, extracts candidate XSS tags from the decoded values
with a fixed table of eleven regexes, and reports the first candidate that
occurs literally in the response body.  The dispatcher in main() runs one
such pipeline per URL with bounded concurrency (buffer_unordered) and
collects one (url, outcome-text) pair per URL.

The shallow embedding below models, from the source and the documented
semantics of the libraries it calls:
  - urlencoding::decode (percent-decoding on UTF-8 bytes; malformed escapes
    are passed through literally; the only error is invalid UTF-8 after
    decoding), used at src/main.rs:115;
  - the url crate's Url::query_pairs(), i.e. form_urlencoded parsing of the
    query component: split on the ampersand, skip empty pieces, split each
    piece at the first equals sign, replace plus with space, percent-decode
    (percent_encoding crate behaviour), lossy UTF-8 decode - applied to
    BOTH keys and values (src/main.rs:109-112);
  - the eleven regex patterns and find_iter (src/main.rs:137-171); each
    quantified character class in those patterns excludes the character
    that follows it in the pattern, so greedy matching without backtracking
    coincides with the regex crate's leftmost-first semantics;
  - the pure core of check_xss_reflection (src/main.rs:104-134) given the
    fetch result, and the dispatcher of main() (src/main.rs:69-89), whose
    unordered collection is modelled as an arbitrary permutation of the
    per-URL results and whose admission control is modelled as a labelled
    transition system.
-/

namespace CrabXss

/-! ## Bytes and characters -/

/-- Unicode White_Space property, the character set matched by the regex
crate's backslash-s character class (Unicode mode, the default). -/
def isWsChar (c : Char) : Bool :=
  let n := c.toNat
  (9 ≤ n && n ≤ 13) || n == 32 || n == 133 || n == 160 || n == 0x1680 ||
  (0x2000 ≤ n && n ≤ 0x200A) || n == 0x2028 || n == 0x2029 ||
  n == 0x202F || n == 0x205F || n == 0x3000

/-- Value of an ASCII hex digit byte (0-9, A-F, a-f), as in the hex-digit
helpers of both the urlencoding and percent_encoding crates. -/
def hexVal (b : Nat) : Option Nat :=
  if 48 ≤ b && b ≤ 57 then some (b - 48)
  else if 65 ≤ b && b ≤ 70 then some (b - 55)
  else if 97 ≤ b && b ≤ 102 then some (b - 87)
  else none

/-- UTF-8 encoding of one unicode scalar value. -/
def utf8EncodeChar (c : Char) : List Nat :=
  let n := c.toNat
  if n < 0x80 then [n]
  else if n < 0x800 then [0xC0 + n / 64, 0x80 + n % 64]
  else if n < 0x10000 then
    [0xE0 + n / 4096, 0x80 + (n / 64) % 64, 0x80 + n % 64]
  else
    [0xF0 + n / 262144, 0x80 + (n / 4096) % 64, 0x80 + (n / 64) % 64,
     0x80 + n % 64]

/-- UTF-8 encoding of a character sequence (Rust str::as_bytes). -/
def utf8Encode (s : List Char) : List Nat := s.flatMap utf8EncodeChar

/-- Continuation byte test (0x80-0xBF). -/
def contByte (b : Nat) : Bool := 0x80 ≤ b && b ≤ 0xBF

/-- Admissible first continuation byte after a three-byte lead, per the
standard UTF-8 validation table (rejects overlong forms and surrogates). -/
def cont3First (b b1 : Nat) : Bool :=
  if b == 0xE0 then 0xA0 ≤ b1 && b1 ≤ 0xBF
  else if b == 0xED then 0x80 ≤ b1 && b1 ≤ 0x9F
  else contByte b1

/-- Admissible first continuation byte after a four-byte lead, per the
standard UTF-8 validation table (rejects overlong forms and values past
U+10FFFF). -/
def cont4First (b b1 : Nat) : Bool :=
  if b == 0xF0 then 0x90 ≤ b1 && b1 ≤ 0xBF
  else if b == 0xF4 then 0x80 ≤ b1 && b1 ≤ 0x8F
  else contByte b1

/-- Decode one UTF-8 scalar from a lead byte and the following bytes,
returning the character and the bytes after it; fails on any invalid
sequence (per the standard validation table). -/
def utf8First (b : Nat) (bs : List Nat) : Option (Char × List Nat) :=
  if b < 0x80 then some (Char.ofNat b, bs)
  else if 0xC2 ≤ b && b ≤ 0xDF then
    match bs with
    | b1 :: bs1 =>
      if contByte b1 then some (Char.ofNat ((b - 0xC0) * 64 + (b1 - 0x80)), bs1)
      else none
    | [] => none
  else if 0xE0 ≤ b && b ≤ 0xEF then
    match bs with
    | b1 :: b2 :: bs2 =>
      if cont3First b b1 && contByte b2 then
        some (Char.ofNat ((b - 0xE0) * 4096 + (b1 - 0x80) * 64 + (b2 - 0x80)), bs2)
      else none
    | _ => none
  else if 0xF0 ≤ b && b ≤ 0xF4 then
    match bs with
    | b1 :: b2 :: b3 :: bs3 =>
      if cont4First b b1 && contByte b2 && contByte b3 then
        some (Char.ofNat ((b - 0xF0) * 262144 + (b1 - 0x80) * 4096 +
              (b2 - 0x80) * 64 + (b3 - 0x80)), bs3)
      else none
    | _ => none
  else none

/-- Fuelled strict UTF-8 decoding loop; every step consumes at least the
lead byte, so fuel equal to the byte count suffices. -/
def utf8DecodeF : Nat → List Nat → Option (List Char)
  | _, [] => some []
  | 0, _ :: _ => none
  | fuel + 1, b :: bs =>
    match utf8First b bs with
    | some (c, rest) =>
      match utf8DecodeF fuel rest with
      | some cs => some (c :: cs)
      | none => none
    | none => none

/-- Strict UTF-8 decoding (Rust String::from_utf8): fails on any invalid
byte sequence. -/
def utf8Decode (bs : List Nat) : Option (List Char) :=
  utf8DecodeF bs.length bs

/-- Lossy UTF-8 decoding (Rust String::from_utf8_lossy): each maximal
invalid subpart is replaced by one U+FFFD replacement character. -/
def utf8Lossy : List Nat → List Char
  | [] => []
  | b :: bs =>
    if b < 0x80 then Char.ofNat b :: utf8Lossy bs
    else if 0xC2 ≤ b && b ≤ 0xDF then
      match bs with
      | b1 :: bs1 =>
        if contByte b1 then
          Char.ofNat ((b - 0xC0) * 64 + (b1 - 0x80)) :: utf8Lossy bs1
        else Char.ofNat 0xFFFD :: utf8Lossy (b1 :: bs1)
      | [] => [Char.ofNat 0xFFFD]
    else if 0xE0 ≤ b && b ≤ 0xEF then
      match bs with
      | b1 :: bs1 =>
        if cont3First b b1 then
          match bs1 with
          | b2 :: bs2 =>
            if contByte b2 then
              Char.ofNat ((b - 0xE0) * 4096 + (b1 - 0x80) * 64 + (b2 - 0x80)) ::
                utf8Lossy bs2
            else Char.ofNat 0xFFFD :: utf8Lossy (b2 :: bs2)
          | [] => [Char.ofNat 0xFFFD]
        else Char.ofNat 0xFFFD :: utf8Lossy (b1 :: bs1)
      | [] => [Char.ofNat 0xFFFD]
    else if 0xF0 ≤ b && b ≤ 0xF4 then
      match bs with
      | b1 :: bs1 =>
        if cont4First b b1 then
          match bs1 with
          | b2 :: bs2 =>
            if contByte b2 then
              match bs2 with
              | b3 :: bs3 =>
                if contByte b3 then
                  Char.ofNat ((b - 0xF0) * 262144 + (b1 - 0x80) * 4096 +
                    (b2 - 0x80) * 64 + (b3 - 0x80)) :: utf8Lossy bs3
                else Char.ofNat 0xFFFD :: utf8Lossy (b3 :: bs3)
              | [] => [Char.ofNat 0xFFFD]
            else Char.ofNat 0xFFFD :: utf8Lossy (b2 :: bs2)
          | [] => [Char.ofNat 0xFFFD]
        else Char.ofNat 0xFFFD :: utf8Lossy (b1 :: bs1)
      | [] => [Char.ofNat 0xFFFD]
    else Char.ofNat 0xFFFD :: utf8Lossy bs

/-! ## urlencoding::decode (src/main.rs:115) -/

/-- Percent-decoding over bytes as implemented by urlencoding::decode_binary:
a percent sign followed by two hex digits becomes the denoted byte; a
percent sign followed by one hex digit and a non-hex byte emits the percent
sign and the hex digit and rescans from the non-hex byte; a percent sign
followed by a non-hex byte emits the percent sign and rescans from that
byte; a percent sign with fewer than two bytes left is emitted together
with the remaining bytes unchanged. -/
def pctDecode : List Nat → List Nat
  | [] => []
  | c :: rest =>
    if c = 37 then
      match rest with
      | a :: b :: rest2 =>
        match hexVal a with
        | some x =>
          match hexVal b with
          | some y => (16 * x + y) :: pctDecode rest2
          | none => 37 :: a :: pctDecode (b :: rest2)
        | none => 37 :: pctDecode (a :: b :: rest2)
      | _ => c :: rest
    else c :: pctDecode rest

/-- Model of urlencoding::decode: percent-decode the UTF-8 bytes of the
input and re-validate as UTF-8; the only failure is invalid UTF-8 after
decoding (malformed escapes never fail, they pass through). -/
def urldecode (s : String) : Option String :=
  match utf8Decode (pctDecode (utf8Encode s.data)) with
  | some cs => some (String.mk cs)
  | none => none

/-! ## Url::query_pairs (src/main.rs:109-112) -/

/-- Percent-decoding over bytes as implemented by the percent_encoding
crate (used by form_urlencoded): a percent sign followed by two hex digits
becomes the denoted byte, any other percent sign is emitted literally and
scanning continues with the next byte. -/
def pctDecodeUrl : List Nat → List Nat
  | [] => []
  | 37 :: a :: b :: rest =>
    match hexVal a, hexVal b with
    | some x, some y => (16 * x + y) :: pctDecodeUrl rest
    | _, _ => 37 :: pctDecodeUrl (a :: b :: rest)
  | 37 :: rest => 37 :: pctDecodeUrl rest
  | c :: rest => c :: pctDecodeUrl rest

/-- form_urlencoded's replace_plus: plus becomes space, on bytes. -/
def plusToSpace (bs : List Nat) : List Nat :=
  bs.map (fun b => if b == 43 then 32 else b)

/-- form_urlencoded's decode: replace plus with space, percent-decode,
lossy UTF-8 decode.  Applied by Url::query_pairs to both the key and the
value of every query pair. -/
def formDecode (s : List Char) : String :=
  String.mk (utf8Lossy (pctDecodeUrl (plusToSpace (utf8Encode s))))

/-- Split a character list on the ampersand (all pieces, in order). -/
def splitAmpGo : List Char → List Char → List (List Char)
  | [], acc => [acc.reverse]
  | c :: rest, acc =>
    if c = '&' then acc.reverse :: splitAmpGo rest []
    else splitAmpGo rest (c :: acc)

/-- Split a piece at its first equals sign; a piece without one is all key
and the value is empty (form_urlencoded behaviour). -/
def splitFirstEq : List Char → List Char → List Char × List Char
  | [], acc => (acc.reverse, [])
  | c :: rest, acc =>
    if c = '=' then (acc.reverse, rest)
    else splitFirstEq rest (c :: acc)

/-- Model of Url::query_pairs on the query component of a parsed URL
(form_urlencoded::parse): split on the ampersand, skip empty pieces, split
each piece at the first equals sign, and decode BOTH sides with
form_urlencoded's decode. -/
def formUrlencodedParse (q : String) : List (String × String) :=
  ((splitAmpGo q.data []).filter (fun piece => !piece.isEmpty)).map
    (fun piece =>
      let kv := splitFirstEq piece []
      (formDecode kv.1, formDecode kv.2))

/-! ## Regex subset (src/main.rs:137-171)

The eleven patterns of the table use only: literal characters, negated
character classes (possibly containing the backslash-s whitespace escape),
and the plus and star quantifiers.  In every pattern, each quantified class
excludes the character that the pattern requires next (the class before a
literal greater-than excludes greater-than, the class before a literal
less-than excludes less-than, and the trailing classes are last), so
greedy matching without backtracking computes exactly the regex crate's
leftmost-first match. -/

/-- Atoms of the regex subset: a literal character, or a negated character
class given by its excluded characters and whether it also excludes
whitespace (backslash-s inside the class). -/
inductive RAtom where
  | lit (c : Char)
  | cls (excl : List Char) (ws : Bool)
deriving DecidableEq, Repr

/-- Quantifiers of the regex subset. -/
inductive RQuant where
  | one
  | plus
  | star
deriving DecidableEq, Repr

/-- A compiled pattern: a sequence of quantified atoms. -/
abbrev Regex := List (RAtom × RQuant)

/-- Whether a single character matches an atom. -/
def atomMatches : RAtom → Char → Bool
  | .lit c, d => d == c
  | .cls excl ws, d => !(excl.contains d) && !(ws && isWsChar d)

/-- Characters that the pattern parser refuses as bare literals (the regex
metacharacters that occur in none of the table's patterns as literals). -/
def metaChar (c : Char) : Bool :=
  c == '[' || c == ']' || c == '\\' || c == '+' || c == '*' || c == '?' ||
  c == '(' || c == ')' || c == '|' || c == '^' || c == '$' || c == '.'

/-- Parse the body of a negated character class, after the opening bracket
and caret, up to the closing bracket.  Returns the excluded characters, the
whitespace flag, and the rest of the pattern. -/
def parseClassGo : List Char → List Char → Bool → Option (List Char × Bool × List Char)
  | [], _, _ => none
  | ']' :: rest, excl, ws => some (excl.reverse, ws, rest)
  | '\\' :: 's' :: rest, excl, _ => parseClassGo rest excl true
  | '\\' :: _, _, _ => none
  | c :: rest, excl, ws => parseClassGo rest (c :: excl) ws

/-- Parse an optional quantifier. -/
def parseQuant : List Char → RQuant × List Char
  | '+' :: rest => (.plus, rest)
  | '*' :: rest => (.star, rest)
  | s => (.one, s)

/-- Fuelled body of the pattern parser; each item consumes at least one
character, so fuel equal to the pattern length suffices. -/
def parseItemsF : Nat → List Char → Option Regex
  | _, [] => some []
  | 0, _ :: _ => none
  | fuel + 1, '[' :: '^' :: rest =>
    match parseClassGo rest [] false with
    | some (excl, ws, rest1) =>
      let q := parseQuant rest1
      match parseItemsF fuel q.2 with
      | some items => some ((RAtom.cls excl ws, q.1) :: items)
      | none => none
    | none => none
  | fuel + 1, c :: rest =>
    if metaChar c then none
    else
      let q := parseQuant rest
      match parseItemsF fuel q.2 with
      | some items => some ((RAtom.lit c, q.1) :: items)
      | none => none

/-- Model of Regex::new for the subset used by the pattern table: returns
the compiled pattern, or none when the pattern falls outside the subset. -/
def parsePattern (p : String) : Option Regex :=
  parseItemsF p.data.length p.data

/-- Greedy matcher for a compiled pattern against a prefix of the input:
returns the matched prefix and the remaining suffix.  For each pattern of
the table this computes the regex crate's match at this position (see the
section comment: no backtracking is ever needed). -/
def matchItems : Regex → List Char → Option (List Char × List Char)
  | [], s => some ([], s)
  | (_, .one) :: _, [] => none
  | (a, .one) :: items, c :: cs =>
    if atomMatches a c then
      match matchItems items cs with
      | some (t, r) => some (c :: t, r)
      | none => none
    else none
  | (a, .plus) :: items, s =>
    let run := s.takeWhile (atomMatches a)
    if run.isEmpty then none
    else
      match matchItems items (s.dropWhile (atomMatches a)) with
      | some (t, r) => some (run ++ t, r)
      | none => none
  | (a, .star) :: items, s =>
    let run := s.takeWhile (atomMatches a)
    match matchItems items (s.dropWhile (atomMatches a)) with
    | some (t, r) => some (run ++ t, r)
    | none => none

/-- Fuelled scan underlying find_iter: at each position try the matcher;
on a match, emit it with its start position and resume after it; otherwise
advance one character.  Fuel equal to the input length suffices because
every match of the table's patterns is nonempty. -/
def findPosGo (m : List Char → Option (List Char × List Char)) :
    Nat → Nat → List Char → List (Nat × List Char)
  | 0, _, _ => []
  | _ + 1, _, [] => []
  | fuel + 1, pos, c :: cs =>
    match m (c :: cs) with
    | some (t, r) => (pos, t) :: findPosGo m fuel (pos + t.length) r
    | none => findPosGo m fuel (pos + 1) cs

/-- Model of find_iter for a compiled pattern: the successive leftmost
non-overlapping matches, each with its start position. -/
def findAllPos (re : Regex) (s : List Char) : List (Nat × List Char) :=
  findPosGo (matchItems re) s.length 0 s

/-- The matched strings of find_iter, in order. -/
def findTags (re : Regex) (s : String) : List String :=
  (findAllPos re s.data).map (fun m => String.mk m.2)

/-! ## Pattern table and tag extraction (src/main.rs:137-171) -/

/-- The eleven regex patterns of extract_tags_from_param, in source
order. -/
def patternStrings : List String :=
  [ "<[^>]+>[^<]*</[^>]+>",
    "<[^>]+>",
    "onerror=[^>\\s]+",
    "OnError=[^>\\s]+",
    "onclick=[^>\\s]+",
    "OnCliCk=[^>\\s]+",
    "onload=[^>\\s]+",
    "OnLoAd=[^>\\s]+",
    "ontoggle=[^>\\s]+",
    "OnToGgLe=[^>\\s]+",
    "src=[^>\\s]+" ]

/-- The compiled pattern table (patterns whose compilation fails are
dropped, mirroring the if-let-Ok skip branch at src/main.rs:159). -/
def compiledRules : List Regex :=
  patternStrings.filterMap parsePattern

/-- Model of extract_tags_from_param: for each pattern in order, compile it
(skipping it silently on failure, as the source does) and append all its
matches; return none when no pattern matched anything. -/
def extract_tags_from_param (param : String) : Option (List String) :=
  let found := patternStrings.flatMap (fun p =>
    match parsePattern p with
    | some re => findTags re param
    | none => [])
  if found.isEmpty then none else some found

/-- The candidate tags of a decoded parameter value as a plain list (the
none of extract_tags_from_param becomes the empty list; the caller at
src/main.rs:116 treats the two identically). -/
def tagsOf (param : String) : List String :=
  (extract_tags_from_param param).getD []

/-! ## Reflection check (src/main.rs:104-134) -/

/-- Whether the needle starts the haystack. -/
def leadsWith : List Char → List Char → Bool
  | [], _ => true
  | _ :: _, [] => false
  | a :: as, b :: bs => a == b && leadsWith as bs

/-- Whether the needle occurs contiguously in the haystack. -/
def hasSubstr : List Char → List Char → Bool
  | [], needle => needle.isEmpty
  | c :: rest, needle => leadsWith needle (c :: rest) || hasSubstr rest needle

/-- Model of Rust str::contains with a string pattern (src/main.rs:118):
literal substring containment. -/
def containsStr (body tag : String) : Bool :=
  hasSubstr body.data tag.data

/-- The error text of the map_err at src/main.rs:115 (the trailing
FromUtf8Error rendering is abstracted away). -/
def decodeErrMsg : String := "Decoding error"

/-- The parameter loop of check_xss_reflection (src/main.rs:114-129): walk
the query pairs in order; decode each value once more with
urlencoding::decode, failing the whole URL on a decode error; extract the
candidate tags and return the first one contained in the body; fall
through to the next pair otherwise.  Returns the reflected tag, or none
after exhausting all pairs. -/
def scanParams (body : String) : List (String × String) → Except String (Option String)
  | [] => .ok none
  | (_, v) :: rest =>
    match urldecode v with
    | none => .error decodeErrMsg
    | some dv =>
      match (tagsOf dv).find? (fun t => containsStr body t) with
      | some t => .ok (some t)
      | none => scanParams body rest

/-- Outcome text for a reflected tag (src/main.rs:121-124). -/
def reflectedMsg (tag status : String) : String :=
  "Potential XSS found! Tag '" ++ tag ++ "' reflected (" ++ status ++ ")"

/-- Outcome text when no tag is reflected (src/main.rs:133). -/
def notReflectedMsg (status : String) : String :=
  "No tag reflection found (" ++ status ++ ")"

/-- Pure core of check_xss_reflection given the fetch result (status and
body, src/main.rs:105-106) and the parsed query pairs (src/main.rs:109-112):
produces the (url, outcome text) pair of the Ok branches, or the error of
the decode failure. -/
def check_xss_core (url status body : String) (pairs : List (String × String)) :
    Except String (String × String) :=
  match scanParams body pairs with
  | .error e => .error e
  | .ok (some t) => .ok (url, reflectedMsg t status)
  | .ok none => .ok (url, notReflectedMsg status)

/-- The candidate tags contributed by one query pair, in production order:
what the loop of src/main.rs:114-129 tests for this pair (empty when the
second decode fails, since the loop never reaches the extraction then). -/
def candidatesOf (p : String × String) : List String :=
  match urldecode p.2 with
  | some dv => tagsOf dv
  | none => []

/-! ## Dispatcher (src/main.rs:69-89) -/

/-- The spawned task of the dispatcher (src/main.rs:73-78): the pipeline's
Ok value is passed through, an Err e becomes the (url, Error text) pair. -/
def runTask (pipe : String → Except String (String × String)) (url : String) :
    String × String :=
  match pipe url with
  | .ok r => r
  | .error e => (url, "Error: " ++ e)

/-- The outcomes of the whole batch in submission order; buffer_unordered
delivers an arbitrary permutation of this list. -/
def dispatchOutcomes (pipe : String → Except String (String × String))
    (urls : List String) : List (String × String) :=
  urls.map (runTask pipe)

/-- State of the admission-control model of the dispatcher: URLs not yet
admitted, URLs whose pipeline run is in flight, and collected outcomes. -/
structure DState where
  pending : List String
  inflight : List String
  done : List (String × String)

/-- Steps of the dispatcher model (stream::iter + map + tokio::spawn +
buffer_unordered, src/main.rs:69-82): a start step admits the next pending
URL when fewer than K runs are in flight (buffer_unordered pulls from the
lazy stream, which spawns the task); a finish step completes any in-flight
run and records its outcome. -/
inductive DStep (run : String → String × String) (K : Nat) : DState → DState → Prop
  | start (u : String) (rest infl : List String) (done : List (String × String)) :
      infl.length < K →
      DStep run K ⟨u :: rest, infl, done⟩ ⟨rest, u :: infl, done⟩
  | finish (pend : List String) (l1 l2 : List String) (u : String)
      (done : List (String × String)) :
      DStep run K ⟨pend, l1 ++ u :: l2, done⟩ ⟨pend, l1 ++ l2, run u :: done⟩

/-- Reachability in the dispatcher model. -/
def DReach (run : String → String × String) (K : Nat) : DState → DState → Prop :=
  Relation.ReflTransGen (DStep run K)

/-- Initial dispatcher state for a batch. -/
def dInit (urls : List String) : DState := ⟨urls, [], []⟩

/-! ## Auxiliary definitions for the statements -/

/-- Whether a pattern's first item cannot match the empty string (true for
all eleven patterns of the table, which begin with a literal). -/
def mandatoryHead : Regex → Bool
  | (_, .one) :: _ => true
  | (_, .plus) :: _ => true
  | _ => false

/-- Whether a byte sequence contains no percent sign followed by two hex
digits (so percent-decoding finds nothing to decode). -/
def noEscB : List Nat → Bool
  | [] => true
  | c :: rest =>
    (if c = 37 then
      match rest with
      | a :: b :: _ => !((hexVal a).isSome && (hexVal b).isSome)
      | _ => true
     else true) && noEscB rest

/-- Whether a character sequence contains no percent sign followed by two
hex digits. -/
def noValidEscape (l : List Char) : Bool :=
  noEscB (l.map Char.toNat)

/-- The compiled form of the table's first pattern (paired tag with
content). -/
def pairedRule : Regex :=
  [(.lit '<', .one), (.cls ['>'] false, .plus), (.lit '>', .one),
   (.cls ['<'] false, .star), (.lit '<', .one), (.lit '/', .one),
   (.cls ['>'] false, .plus), (.lit '>', .one)]

/-- The name-like text of a candidate's opening tag: the characters after
the initial angle bracket, up to the first closing angle bracket. -/
def openTagName (s : String) : String :=
  String.mk ((s.data.drop 1).takeWhile (fun c => !(c == '>')))

/-- The name-like text of a candidate's closing tag: the characters
between the final slash and the final angle bracket. -/
def closeTagName (s : String) : String :=
  String.mk ((((s.data.reverse).drop 1).takeWhile (fun c => !(c == '/'))).reverse)

/-! ## Matcher lemmas -/

/-- A successful match splits the input into the matched prefix and the
remaining suffix. -/
theorem matchItems_append :
    ∀ (re : Regex) (s t r : List Char), matchItems re s = some (t, r) → t ++ r = s := by
  intro re
  induction re with
  | nil =>
    intro s t r h
    simp only [matchItems, Option.some.injEq, Prod.mk.injEq] at h
    rw [← h.1, ← h.2]
    rfl
  | cons it items ih =>
    intro s t r h
    obtain ⟨a, q⟩ := it
    cases q with
    | one =>
      cases s with
      | nil => simp [matchItems] at h
      | cons c cs =>
        simp only [matchItems] at h
        by_cases ha : atomMatches a c
        · rw [if_pos ha] at h
          cases hm : matchItems items cs with
          | none => rw [hm] at h; exact absurd h (by simp)
          | some pr =>
            obtain ⟨t1, r1⟩ := pr
            rw [hm] at h
            simp only [Option.some.injEq, Prod.mk.injEq] at h
            rw [← h.1, ← h.2]
            simpa using ih cs t1 r1 hm
        · rw [if_neg ha] at h
          exact absurd h (by simp)
    | plus =>
      simp only [matchItems] at h
      by_cases he : (s.takeWhile (atomMatches a)).isEmpty
      · rw [if_pos he] at h
        exact absurd h (by simp)
      · rw [if_neg he] at h
        cases hm : matchItems items (s.dropWhile (atomMatches a)) with
        | none => rw [hm] at h; exact absurd h (by simp)
        | some pr =>
          obtain ⟨t1, r1⟩ := pr
          rw [hm] at h
          simp only [Option.some.injEq, Prod.mk.injEq] at h
          rw [← h.1, ← h.2]
          rw [List.append_assoc, ih _ t1 r1 hm, List.takeWhile_append_dropWhile]
    | star =>
      simp only [matchItems] at h
      cases hm : matchItems items (s.dropWhile (atomMatches a)) with
      | none => rw [hm] at h; exact absurd h (by simp)
      | some pr =>
        obtain ⟨t1, r1⟩ := pr
        rw [hm] at h
        simp only [Option.some.injEq, Prod.mk.injEq] at h
        rw [← h.1, ← h.2]
        rw [List.append_assoc, ih _ t1 r1 hm, List.takeWhile_append_dropWhile]

/-- A pattern with a mandatory first item never matches the empty string. -/
theorem matchItems_ne_nil (re : Regex) (hre : mandatoryHead re = true) :
    ∀ s t r, matchItems re s = some (t, r) → t ≠ [] := by
  intro s t r h
  match re, hre with
  | (a, .one) :: items, _ =>
    cases s with
    | nil => simp [matchItems] at h
    | cons c cs =>
      simp only [matchItems] at h
      by_cases ha : atomMatches a c
      · rw [if_pos ha] at h
        cases hm : matchItems items cs with
        | none => rw [hm] at h; exact absurd h (by simp)
        | some pr =>
          obtain ⟨t1, r1⟩ := pr
          rw [hm] at h
          simp only [Option.some.injEq, Prod.mk.injEq] at h
          rw [← h.1]
          simp
      · rw [if_neg ha] at h
        exact absurd h (by simp)
  | (a, .plus) :: items, _ =>
    simp only [matchItems] at h
    by_cases he : (s.takeWhile (atomMatches a)).isEmpty
    · rw [if_pos he] at h
      exact absurd h (by simp)
    · rw [if_neg he] at h
      cases hm : matchItems items (s.dropWhile (atomMatches a)) with
      | none => rw [hm] at h; exact absurd h (by simp)
      | some pr =>
        obtain ⟨t1, r1⟩ := pr
        rw [hm] at h
        simp only [Option.some.injEq, Prod.mk.injEq] at h
        rw [← h.1]
        intro hnil
        rw [List.append_eq_nil] at hnil
        rw [hnil.1] at he
        simp at he

/-! ## find_iter lemmas

The three lemmas below characterise the fuelled scan for any matcher that
consumes a nonempty prefix: every emitted pair is a genuine match at its
position, positions are increasing and matches do not overlap, and every
position where the matcher succeeds is covered by an emitted match. -/

/-- Soundness of the scan: every emitted (position, match) pair is a match
of the matcher at that position of the input. -/
theorem findPosGo_sound (m : List Char → Option (List Char × List Char))
    (hc : ∀ s t r, m s = some (t, r) → t ++ r = s)
    (hne : ∀ s t r, m s = some (t, r) → t ≠ []) :
    ∀ (fuel pos : Nat) (s : List Char), s.length ≤ fuel →
      ∀ i t, (i, t) ∈ findPosGo m fuel pos s →
        ∃ k, i = pos + k ∧ m (s.drop k) = some (t, s.drop (k + t.length)) := by
  intro fuel
  induction fuel with
  | zero => intro pos s hs i t h; simp [findPosGo] at h
  | succ f ih =>
    intro pos s hs i t h
    cases s with
    | nil => simp [findPosGo] at h
    | cons c cs =>
      simp only [findPosGo] at h
      cases hm : m (c :: cs) with
      | some pr =>
        obtain ⟨t0, r⟩ := pr
        rw [hm] at h
        have htr : t0 ++ r = c :: cs := hc _ _ _ hm
        have hr : r = (c :: cs).drop t0.length := by
          rw [← htr, List.drop_left]
        have ht0 : t0 ≠ [] := hne _ _ _ hm
        have ht0len : 1 ≤ t0.length := by
          cases t0 with
          | nil => exact absurd rfl ht0
          | cons x xs => simp
        simp only [List.mem_cons] at h
        rcases h with h | h
        · have hi : i = pos := (Prod.mk.injEq _ _ _ _ ▸ h).1
          have ht : t = t0 := (Prod.mk.injEq _ _ _ _ ▸ h).2
          refine ⟨0, by omega, ?_⟩
          rw [List.drop_zero, hm, ht, Nat.zero_add, ← hr]
        · have hrlen : r.length ≤ f := by
            have := congrArg List.length htr
            simp only [List.length_append, List.length_cons] at this
            simp only [List.length_cons] at hs
            omega
          obtain ⟨k, hik, hmk⟩ := ih (pos + t0.length) r hrlen i t h
          refine ⟨t0.length + k, by omega, ?_⟩
          have harith : t0.length + (k + t.length) = t0.length + k + t.length := by omega
          rw [hr, List.drop_drop, List.drop_drop, harith] at hmk
          exact hmk
      | none =>
        rw [hm] at h
        have hlen : cs.length ≤ f := by
          simp only [List.length_cons] at hs; omega
        obtain ⟨k, hik, hmk⟩ := ih (pos + 1) cs hlen i t h
        refine ⟨1 + k, by omega, ?_⟩
        have h1 : (c :: cs).drop (1 + k) = cs.drop k := by
          rw [Nat.add_comm, List.drop_succ_cons]
        have h2 : (c :: cs).drop (1 + k + t.length) = cs.drop (k + t.length) := by
          rw [Nat.add_comm 1 k, Nat.add_assoc, Nat.add_comm 1 t.length,
              ← Nat.add_assoc, List.drop_succ_cons]
        rw [h1, h2]
        exact hmk

/-- Ordering of the scan: positions start at the scan origin or later, and
consecutive matches are in left-to-right order without overlap. -/
theorem findPosGo_chain (m : List Char → Option (List Char × List Char)) :
    ∀ (fuel pos : Nat) (s : List Char),
      (∀ x ∈ findPosGo m fuel pos s, pos ≤ x.1) ∧
      List.Chain' (fun a b => a.1 + a.2.length ≤ b.1) (findPosGo m fuel pos s) := by
  intro fuel
  induction fuel with
  | zero => intro pos s; simp [findPosGo]
  | succ f ih =>
    intro pos s
    cases s with
    | nil => simp [findPosGo]
    | cons c cs =>
      simp only [findPosGo]
      cases hm : m (c :: cs) with
      | some pr =>
        obtain ⟨t0, r⟩ := pr
        obtain ⟨ihb, ihc⟩ := ih (pos + t0.length) r
        constructor
        · intro x hx
          simp only [List.mem_cons] at hx
          rcases hx with hx | hx
          · rw [hx]
          · have := ihb x hx
            omega
        · rw [List.chain'_cons']
          refine ⟨?_, ihc⟩
          intro y hy
          have hmem : y ∈ findPosGo m f (pos + t0.length) r := by
            cases hl : findPosGo m f (pos + t0.length) r with
            | nil => rw [hl] at hy; simp at hy
            | cons z zs =>
              rw [hl] at hy
              simp only [List.head?_cons, Option.mem_def, Option.some.injEq] at hy
              simp [hy]
          exact ihb y hmem
      | none =>
        obtain ⟨ihb, ihc⟩ := ih (pos + 1) cs
        refine ⟨?_, ihc⟩
        intro x hx
        have := ihb x hx
        omega

/-- Completeness of the scan: any position where the matcher succeeds lies
inside (or at the start of) some emitted match. -/
theorem findPosGo_complete (m : List Char → Option (List Char × List Char))
    (hc : ∀ s t r, m s = some (t, r) → t ++ r = s)
    (hne : ∀ s t r, m s = some (t, r) → t ≠ []) :
    ∀ (fuel pos : Nat) (s : List Char), s.length ≤ fuel →
      ∀ k, (m (s.drop k)).isSome →
        ∃ x ∈ findPosGo m fuel pos s, x.1 ≤ pos + k ∧ pos + k < x.1 + x.2.length := by
  have hmnil : m [] = none := by
    cases hm : m [] with
    | none => rfl
    | some pr =>
      obtain ⟨t, r⟩ := pr
      have := hc _ _ _ hm
      have ht := hne _ _ _ hm
      rw [List.append_eq_nil] at this
      exact absurd this.1 ht
  intro fuel
  induction fuel with
  | zero =>
    intro pos s hs k hk
    have : s = [] := List.length_eq_zero.mp (Nat.le_zero.mp hs)
    rw [this, List.drop_nil, hmnil] at hk
    simp at hk
  | succ f ih =>
    intro pos s hs k hk
    cases s with
    | nil =>
      rw [List.drop_nil, hmnil] at hk
      simp at hk
    | cons c cs =>
      simp only [findPosGo]
      cases hm : m (c :: cs) with
      | some pr =>
        obtain ⟨t0, r⟩ := pr
        have htr : t0 ++ r = c :: cs := hc _ _ _ hm
        have hr : r = (c :: cs).drop t0.length := by
          rw [← htr, List.drop_left]
        have ht0 : t0 ≠ [] := hne _ _ _ hm
        have ht0len : 1 ≤ t0.length := by
          cases t0 with
          | nil => exact absurd rfl ht0
          | cons x xs => simp
        by_cases hkt : k < t0.length
        · exact ⟨(pos, t0), by simp, by simp; omega⟩
        · have hrlen : r.length ≤ f := by
            have := congrArg List.length htr
            simp only [List.length_append, List.length_cons] at this
            simp only [List.length_cons] at hs
            omega
          have hdrop : (c :: cs).drop k = r.drop (k - t0.length) := by
            rw [hr, List.drop_drop]
            congr 1
            omega
          rw [hdrop] at hk
          obtain ⟨x, hxmem, hx1, hx2⟩ := ih (pos + t0.length) r hrlen (k - t0.length) hk
          refine ⟨x, by simp [hxmem], by omega, by omega⟩
      | none =>
        cases k with
        | zero =>
          rw [List.drop_zero, hm] at hk
          simp at hk
        | succ k1 =>
          have hlen : cs.length ≤ f := by
            simp only [List.length_cons] at hs; omega
          rw [List.drop_succ_cons] at hk
          obtain ⟨x, hxmem, hx1, hx2⟩ := ih (pos + 1) cs hlen k1 hk
          exact ⟨x, hxmem, by omega, by omega⟩

/-! ## Extractor and pipeline lemmas -/

/-- A flatMap whose body matches on an optional compilation and skips
failures equals a flatten over the successfully compiled elements. -/
theorem flatMap_compile_eq (g : String → Option Regex) (f : Regex → List String) :
    ∀ ps : List String,
      (ps.flatMap fun p =>
        match g p with
        | some re => f re
        | none => []) = ((ps.filterMap g).map f).flatten := by
  intro ps
  induction ps with
  | nil => simp
  | cons p ps ih =>
    cases hg : g p <;>
      simp [List.flatMap_cons, List.filterMap_cons, hg, ih]

/-- The candidate list of a decoded value is the concatenation, in rule
order, of the match lists of the compiled patterns. -/
theorem tagsOf_eq (v : String) :
    tagsOf v = (compiledRules.map (fun re => findTags re v)).flatten := by
  unfold tagsOf extract_tags_from_param compiledRules
  rw [flatMap_compile_eq parsePattern (fun re => findTags re v) patternStrings]
  generalize (List.map (fun re => findTags re v)
    (List.filterMap parsePattern patternStrings)).flatten = X
  show (if X.isEmpty then none else some X).getD [] = X
  by_cases hX : X.isEmpty = true
  · rw [if_pos hX, Option.getD_none, List.isEmpty_iff.mp hX]
  · rw [if_neg hX, Option.getD_some]

/-- The first-match search of an appended candidate list. -/
theorem find?_append_eq (p : String → Bool) (l1 l2 : List String) :
    (l1 ++ l2).find? p =
      match l1.find? p with
      | some x => some x
      | none => l2.find? p := by
  rw [List.find?_append]
  cases l1.find? p <;> simp [Option.or]

/-- The parameter loop equals a first-match search over the flattened
candidate sequence (parameters in appearance order, candidates in
extraction order), provided every value decodes. -/
theorem scanParams_eq (body : String) :
    ∀ pairs : List (String × String),
      (∀ p ∈ pairs, (urldecode p.2).isSome) →
      scanParams body pairs =
        .ok ((pairs.flatMap candidatesOf).find? (fun t => containsStr body t)) := by
  intro pairs
  induction pairs with
  | nil => intro _; simp [scanParams]
  | cons p rest ih =>
    intro h
    obtain ⟨k, v⟩ := p
    have hv : (urldecode v).isSome := h (k, v) (by simp)
    obtain ⟨dv, hdv⟩ := Option.isSome_iff_exists.mp hv
    have hcand : candidatesOf (k, v) = tagsOf dv := by
      simp [candidatesOf, hdv]
    simp only [scanParams, hdv, List.flatMap_cons, hcand, find?_append_eq]
    cases hf : (tagsOf dv).find? (fun t => containsStr body t) with
    | some t => rfl
    | none => exact ih (fun q hq => h q (List.mem_cons_of_mem _ hq))

/-- The spawned task pairs each outcome with its originating URL: the Ok
branch of check_xss_reflection returns the url itself, and the Err branch
pairs the url explicitly (src/main.rs:74-77). -/
theorem runTask_fst (pipe : String → Except String (String × String))
    (hpair : ∀ u p, pipe u = .ok p → p.1 = u) (u : String) :
    (runTask pipe u).1 = u := by
  unfold runTask
  cases hp : pipe u with
  | ok r => exact hpair u r hp
  | error e => rfl

/-! ## Percent-decoding lemmas -/

/-- The no-valid-escape property is closed under taking the tail. -/
theorem noEscB_tail (c : Nat) (rest : List Nat) (h : noEscB (c :: rest) = true) :
    noEscB rest = true := by
  simp only [noEscB, Bool.and_eq_true] at h
  exact h.2

/-- One-step unfolding of percent-decoding at a percent sign with at least
two following bytes. -/
theorem pctDecode_cons37 (a b : Nat) (r : List Nat) :
    pctDecode (37 :: a :: b :: r) =
      match hexVal a with
      | some x =>
        match hexVal b with
        | some y => (16 * x + y) :: pctDecode r
        | none => 37 :: a :: pctDecode (b :: r)
      | none => 37 :: pctDecode (a :: b :: r) := rfl

/-- One-step unfolding of percent-decoding at an ordinary byte. -/
theorem pctDecode_cons_ne (c : Nat) (r : List Nat) (hc : ¬c = 37) :
    pctDecode (c :: r) = c :: pctDecode r := by
  rw [pctDecode.eq_def]
  simp [hc]

/-- urlencoding's percent-decoding is the identity on byte sequences with
no valid escape (malformed escapes pass through unchanged). -/
theorem pctDecode_id : ∀ bs : List Nat, noEscB bs = true → pctDecode bs = bs := by
  intro bs
  induction bs using pctDecode.induct with
  | case1 => intro _; rfl
  | case2 a b rest2 x hx y hy ih =>
    intro h
    simp [noEscB, hx, hy] at h
  | case3 a b rest2 x hx hy ih =>
    intro h
    have hb : noEscB (b :: rest2) = true :=
      noEscB_tail a _ (noEscB_tail 37 _ h)
    rw [pctDecode_cons37, hx, hy, ih hb]
  | case4 a b rest2 hx ih =>
    intro h
    have hab : noEscB (a :: b :: rest2) = true := noEscB_tail 37 _ h
    rw [pctDecode_cons37, hx, ih hab]
  | case5 rest hshape =>
    intro _
    cases rest with
    | nil => rfl
    | cons a rest1 =>
      cases rest1 with
      | nil => rfl
      | cons b rest2 => exact absurd rfl (hshape a b rest2)
  | case6 c rest hc ih =>
    intro h
    rw [pctDecode_cons_ne c rest hc, ih (noEscB_tail c rest h)]

/-- UTF-8 encoding of an ASCII character sequence is the bytewise code
point sequence. -/
theorem utf8Encode_ascii : ∀ l : List Char, (∀ c ∈ l, c.toNat < 128) →
    utf8Encode l = l.map Char.toNat := by
  intro l
  induction l with
  | nil => intro _; rfl
  | cons c rest ih =>
    intro h
    have hc : c.toNat < 128 := h c (by simp)
    have ih2 := ih (fun d hd => h d (List.mem_cons_of_mem _ hd))
    show utf8EncodeChar c ++ utf8Encode rest = c.toNat :: rest.map Char.toNat
    rw [ih2]
    have hlit : utf8EncodeChar c = [c.toNat] := by
      show (if c.toNat < 128 then [c.toNat] else _) = [c.toNat]
      rw [if_pos hc]
    rw [hlit]
    rfl

/-- The fuelled strict decoder on ASCII bytes succeeds bytewise. -/
theorem utf8DecodeF_ascii : ∀ (fuel : Nat) (bs : List Nat), bs.length ≤ fuel →
    (∀ b ∈ bs, b < 128) → utf8DecodeF fuel bs = some (bs.map Char.ofNat) := by
  intro fuel
  induction fuel with
  | zero =>
    intro bs hlen _
    have hnil : bs = [] := List.length_eq_zero.mp (Nat.le_zero.mp hlen)
    rw [hnil]
    rfl
  | succ f ih =>
    intro bs hlen h
    cases bs with
    | nil => rfl
    | cons b rest =>
      have hb : b < 128 := h b (by simp)
      have hfirst : utf8First b rest = some (Char.ofNat b, rest) := by
        unfold utf8First
        rw [if_pos hb]
      have hlen2 : rest.length ≤ f := by
        simp only [List.length_cons] at hlen
        omega
      have hrest := ih rest hlen2 (fun d hd => h d (List.mem_cons_of_mem _ hd))
      simp only [utf8DecodeF, hfirst, hrest, List.map_cons]

/-- Strict UTF-8 decoding of ASCII bytes succeeds bytewise. -/
theorem utf8Decode_ascii (bs : List Nat) (h : ∀ b ∈ bs, b < 128) :
    utf8Decode bs = some (bs.map Char.ofNat) :=
  utf8DecodeF_ascii bs.length bs (Nat.le_refl _) h

/-- urlencoding::decode returns an ASCII value with no valid escape
unchanged: malformed escapes are passed through, not rejected. -/
theorem urldecode_passthrough (v : String)
    (hascii : ∀ c ∈ v.data, c.toNat < 128)
    (hesc : noValidEscape v.data = true) :
    urldecode v = some v := by
  unfold urldecode
  rw [utf8Encode_ascii v.data hascii]
  unfold noValidEscape at hesc
  rw [pctDecode_id _ hesc]
  rw [utf8Decode_ascii _ (by
    intro b hb
    obtain ⟨c, hc, hcb⟩ := List.mem_map.mp hb
    rw [← hcb]
    exact hascii c hc)]
  rw [List.map_map]
  have : v.data.map (Char.ofNat ∘ Char.toNat) = v.data.map id := by
    apply List.map_congr_left
    intro c _
    exact Char.ofNat_toNat c
  rw [this, List.map_id]

/-! ## Query split lemmas -/

/-- Splitting on the ampersand is trivial when none occurs. -/
theorem splitAmpGo_no_amp : ∀ (l acc : List Char), '&' ∉ l →
    splitAmpGo l acc = [acc.reverse ++ l] := by
  intro l
  induction l with
  | nil => intro acc _; simp [splitAmpGo]
  | cons c rest ih =>
    intro acc h
    have hc : ¬(c = '&') := fun he => h (he ▸ List.mem_cons_self c rest)
    have hrest : '&' ∉ rest := fun hm => h (List.mem_cons_of_mem _ hm)
    simp only [splitAmpGo, if_neg hc, ih (c :: acc) hrest]
    simp

/-- Splitting a piece at its first equals sign recovers the raw key and the
raw value when the key contains no equals sign. -/
theorem splitFirstEq_spec : ∀ (rk : List Char) (rv acc : List Char), '=' ∉ rk →
    splitFirstEq (rk ++ '=' :: rv) acc = (acc.reverse ++ rk, rv) := by
  intro rk
  induction rk with
  | nil => intro rv acc _; simp [splitFirstEq]
  | cons c rest ih =>
    intro rv acc h
    have hc : ¬(c = '=') := fun he => h (he ▸ List.mem_cons_self c rest)
    have hrest : '=' ∉ rest := fun hm => h (List.mem_cons_of_mem _ hm)
    simp only [List.cons_append, splitFirstEq, if_neg hc, List.append_eq]
    rw [ih rv (c :: acc) hrest]
    simp

/-! ## Stepwise inversion of the matcher -/

/-- Inversion for a mandatory literal item. -/
theorem matchItems_one_lit (x : Char) (items : Regex) (s t r : List Char)
    (h : matchItems ((RAtom.lit x, RQuant.one) :: items) s = some (t, r)) :
    ∃ s1, s = x :: s1 ∧ ∃ t1, t = x :: t1 ∧ matchItems items s1 = some (t1, r) := by
  cases s with
  | nil => simp [matchItems] at h
  | cons c cs =>
    simp only [matchItems] at h
    by_cases hcx : atomMatches (RAtom.lit x) c
    · rw [if_pos hcx] at h
      have hc : c = x := by simpa [atomMatches] using hcx
      cases hm : matchItems items cs with
      | none => rw [hm] at h; exact absurd h (by simp)
      | some pr =>
        obtain ⟨t1, r1⟩ := pr
        rw [hm] at h
        simp only [Option.some.injEq, Prod.mk.injEq] at h
        subst hc
        exact ⟨cs, rfl, t1, by rw [← h.1], by rw [hm, h.2]⟩
    · rw [if_neg hcx] at h
      exact absurd h (by simp)

/-- Inversion for a plus-quantified item. -/
theorem matchItems_plus_inv (a : RAtom) (items : Regex) (s t r : List Char)
    (h : matchItems ((a, RQuant.plus) :: items) s = some (t, r)) :
    s.takeWhile (atomMatches a) ≠ [] ∧
    ∃ t1, t = s.takeWhile (atomMatches a) ++ t1 ∧
      matchItems items (s.dropWhile (atomMatches a)) = some (t1, r) := by
  simp only [matchItems] at h
  by_cases he : (s.takeWhile (atomMatches a)).isEmpty
  · rw [if_pos he] at h
    exact absurd h (by simp)
  · rw [if_neg he] at h
    cases hm : matchItems items (s.dropWhile (atomMatches a)) with
    | none => rw [hm] at h; exact absurd h (by simp)
    | some pr =>
      obtain ⟨t1, r1⟩ := pr
      rw [hm] at h
      simp only [Option.some.injEq, Prod.mk.injEq] at h
      refine ⟨fun hnil => he (by rw [hnil]; rfl), t1, by rw [← h.1], by rw [h.2]⟩

/-- Inversion for a star-quantified item. -/
theorem matchItems_star_inv (a : RAtom) (items : Regex) (s t r : List Char)
    (h : matchItems ((a, RQuant.star) :: items) s = some (t, r)) :
    ∃ t1, t = s.takeWhile (atomMatches a) ++ t1 ∧
      matchItems items (s.dropWhile (atomMatches a)) = some (t1, r) := by
  simp only [matchItems] at h
  cases hm : matchItems items (s.dropWhile (atomMatches a)) with
  | none => rw [hm] at h; exact absurd h (by simp)
  | some pr =>
    obtain ⟨t1, r1⟩ := pr
    rw [hm] at h
    simp only [Option.some.injEq, Prod.mk.injEq] at h
    exact ⟨t1, by rw [← h.1], by rw [h.2]⟩

/-- Members of a run of the class excluding a given character are not that
character. -/
theorem mem_takeWhile_cls_ne (excl : List Char) (w : Bool) (s : List Char) :
    ∀ c ∈ s.takeWhile (atomMatches (RAtom.cls excl w)), c ∉ excl := by
  intro c hc
  have h := List.mem_takeWhile_imp hc
  simp only [atomMatches, Bool.and_eq_true, Bool.not_eq_true'] at h
  simpa using h.1

/-! ## Claims -/

/-- C1: for every input list of N target URLs and every concurrency limit
K of at least 1, the dispatcher returns exactly N scan outcomes, one per
input URL, each paired to its originating URL, regardless of K and of the
order in which pipeline runs complete (the unordered collection of
buffer_unordered is an arbitrary permutation of the per-URL results). -/
theorem dispatcher_outcome_count
    (pipe : String → Except String (String × String)) (K : Nat) (hK : 1 ≤ K)
    (hpair : ∀ u p, pipe u = .ok p → p.1 = u)
    (urls : List String) (results : List (String × String))
    (hperm : results.Perm (dispatchOutcomes pipe urls)) :
    results.length = urls.length ∧
    (results.map Prod.fst).Perm urls ∧
    ∀ r ∈ results, r = runTask pipe r.1 := by
  have hfst : ∀ u, (runTask pipe u).1 = u := runTask_fst pipe hpair
  refine ⟨?_, ?_, ?_⟩
  · rw [hperm.length_eq]
    exact List.length_map _ _
  · have h1 := hperm.map Prod.fst
    rw [dispatchOutcomes, List.map_map] at h1
    have h2 : urls.map (Prod.fst ∘ runTask pipe) = urls.map id :=
      List.map_congr_left (fun u _ => hfst u)
    rw [h2, List.map_id] at h1
    exact h1
  · intro r hr
    have hr2 : r ∈ dispatchOutcomes pipe urls := hperm.mem_iff.mp hr
    rw [dispatchOutcomes] at hr2
    obtain ⟨u, _, hu⟩ := List.mem_map.mp hr2
    rw [← hu, hfst u]

/-- Witness for C1 at a concrete batch of two URLs collected in reversed
completion order. -/
theorem dispatcher_outcome_count_witness :
    [("b", "ok"), ("a", "ok")].length = ["a", "b"].length ∧
    ([("b", "ok"), ("a", "ok")].map Prod.fst).Perm ["a", "b"] ∧
    ∀ r ∈ [("b", "ok"), ("a", "ok")],
      r = runTask (fun u => Except.ok (u, "ok")) r.1 :=
  dispatcher_outcome_count (fun u => Except.ok (u, "ok")) 1 (by decide)
    (fun u p hp => by cases hp; rfl) ["a", "b"] [("b", "ok"), ("a", "ok")]
    (by decide)

/-- C2: given a successful fetch (status and body) and query pairs all of
whose values decode, the pipeline core returns the Reflected outcome if and
only if some candidate tag occurs literally in the body, reporting the
first such candidate in production order (parameters in appearance order,
candidates in extraction order); otherwise - including with zero
parameters or zero candidates - it returns the NotReflected outcome. -/
theorem reflection_first_candidate (url status body : String)
    (pairs : List (String × String))
    (hdec : ∀ p ∈ pairs, (urldecode p.2).isSome) :
    check_xss_core url status body pairs =
      match (pairs.flatMap candidatesOf).find? (fun t => containsStr body t) with
      | some t => .ok (url, reflectedMsg t status)
      | none => .ok (url, notReflectedMsg status) := by
  unfold check_xss_core
  rw [scanParams_eq body pairs hdec]
  cases (pairs.flatMap candidatesOf).find? (fun t => containsStr body t) <;> rfl

/-- Witness for C2: a script-style tag in the only parameter is reflected
in the body and reported with the status. -/
theorem reflection_first_candidate_witness :
    check_xss_core "u" "200 OK" "zz<b>hi</b>zz" [("q", "<b>hi</b>")] =
      Except.ok ("u", reflectedMsg "<b>hi</b>" "200 OK") := by
  rw [reflection_first_candidate "u" "200 OK" "zz<b>hi</b>zz" [("q", "<b>hi</b>")]
    (by decide)]
  rfl

/-- C3 counterexample: for the query a%41=b%2541 the code exposes the key
percent-decoded (aA, not the raw a%41), and the extractor sees the value
percent-decoded twice (bA rather than the once-decoded b%41). -/
theorem query_decoder_key_decoded_cex :
    formUrlencodedParse "a%41=b%2541" = [("aA", "b%41")] ∧
    ("aA" : String) ≠ "a%41" ∧
    urldecode "b%41" = some "bA" ∧
    ("bA" : String) ≠ "b%41" := by
  refine ⟨by decide, by decide, by decide, by decide⟩

/-- C3 amended: the query decoder exposes, for every raw pair, the key and
the value BOTH decoded once by the query parser (plus-to-space and
percent-decoding with lossy UTF-8), after which the pipeline applies
urlencoding's percent-decoding to the value a second time before
extraction. -/
theorem query_decoder_double_decode (rk rv : List Char)
    (hk1 : '&' ∉ rk) (hv1 : '&' ∉ rv) (hk2 : '=' ∉ rk) :
    formUrlencodedParse (String.mk (rk ++ '=' :: rv)) =
      [(formDecode rk, formDecode rv)] ∧
    ∀ body : String,
      scanParams body (formUrlencodedParse (String.mk (rk ++ '=' :: rv))) =
        match urldecode (formDecode rv) with
        | none => .error decodeErrMsg
        | some dv =>
          match (tagsOf dv).find? (fun t => containsStr body t) with
          | some t => .ok (some t)
          | none => .ok none := by
  have hq : formUrlencodedParse (String.mk (rk ++ '=' :: rv)) =
      [(formDecode rk, formDecode rv)] := by
    unfold formUrlencodedParse
    have hdata : (String.mk (rk ++ '=' :: rv)).data = rk ++ '=' :: rv := rfl
    rw [hdata]
    have hamp : '&' ∉ rk ++ '=' :: rv := by
      intro hmem
      rcases List.mem_append.mp hmem with h | h
      · exact hk1 h
      · rcases List.mem_cons.mp h with h | h
        · exact absurd h (by decide)
        · exact hv1 h
    rw [splitAmpGo_no_amp _ [] hamp]
    simp only [List.reverse_nil, List.nil_append]
    have hne : (!(rk ++ '=' :: rv).isEmpty) = true := by
      cases rk <;> rfl
    simp only [List.filter_cons, List.filter_nil, hne, if_true, List.map_cons,
      List.map_nil]
    have hsplit := splitFirstEq_spec rk rv [] hk2
    simp only [List.reverse_nil, List.nil_append] at hsplit
    rw [hsplit]
  refine ⟨hq, ?_⟩
  intro body
  rw [hq]
  simp only [scanParams]

/-- Witness for C3's amended statement at a concrete raw pair. -/
theorem query_decoder_double_decode_witness :
    formUrlencodedParse (String.mk ("k".data ++ '=' :: "v%41".data)) =
      [(formDecode "k".data, formDecode "v%41".data)] :=
  (query_decoder_double_decode "k".data "v%41".data (by decide) (by decide)
    (by decide)).1

/-- C4: an error in one URL's pipeline run (fetch, URL parse, or decode)
becomes an Error outcome for that URL alone: the batch outcome list splits
around the failing URL into exactly the outcome lists the sibling URLs
would produce anyway. -/
theorem failure_isolation (pipe : String → Except String (String × String))
    (l1 l2 : List String) (u e : String) (h : pipe u = .error e) :
    dispatchOutcomes pipe (l1 ++ u :: l2) =
      dispatchOutcomes pipe l1 ++ (u, "Error: " ++ e) :: dispatchOutcomes pipe l2 := by
  have hu : runTask pipe u = (u, "Error: " ++ e) := by
    unfold runTask
    rw [h]
  unfold dispatchOutcomes
  rw [List.map_append, List.map_cons, hu]

/-- Witness for C4: a failing middle URL yields its Error line while both
neighbours keep their outcomes. -/
theorem failure_isolation_witness :
    dispatchOutcomes
        (fun v => if v = "bad" then Except.error "boom" else Except.ok (v, "ok"))
        (["a"] ++ "bad" :: ["b"]) =
      dispatchOutcomes
        (fun v => if v = "bad" then Except.error "boom" else Except.ok (v, "ok"))
        ["a"] ++
      ("bad", "Error: " ++ "boom") ::
      dispatchOutcomes
        (fun v => if v = "bad" then Except.error "boom" else Except.ok (v, "ok"))
        ["b"] :=
  failure_isolation _ ["a"] ["b"] "bad" "boom" rfl

/-- C5 counterexample: the raw value %2 carries a truncated percent escape,
yet decoding passes it through unchanged and the pipeline completes with a
NotReflected outcome instead of a decoding failure. -/
theorem invalid_escape_no_failure_cex :
    formUrlencodedParse "x=%2" = [("x", "%2")] ∧
    urldecode "%2" = some "%2" ∧
    scanParams "" [("x", "%2")] = .ok none ∧
    check_xss_core "u" "200 OK" "" [("x", "%2")] =
      .ok ("u", notReflectedMsg "200 OK") := by
  refine ⟨by decide, by decide, by rfl, by rfl⟩

/-- C5 amended: decoding never fails on malformed escapes - an ASCII value
with no valid percent escape decodes to itself and the pipeline continues;
a decoding failure occurs exactly when the percent-decoded bytes are not
valid UTF-8, as for the doubly-encoded %FF. -/
theorem decode_failure_only_invalid_utf8 :
    (∀ v : String, (∀ c ∈ v.data, c.toNat < 128) → noValidEscape v.data = true →
      urldecode v = some v) ∧
    urldecode "%FF" = none ∧
    scanParams "" [("x", "%FF")] = .error decodeErrMsg := by
  refine ⟨fun v h1 h2 => urldecode_passthrough v h1 h2, by decide, by rfl⟩

/-- Witness for C5's amended statement: a truncated escape passes through. -/
theorem decode_failure_only_invalid_utf8_witness :
    urldecode "%2Z" = some "%2Z" :=
  decode_failure_only_invalid_utf8.1 "%2Z" (by decide) (by decide)

/-- C6 counterexample: on the value <a>x</b> the first (paired) rule emits
the candidate <a>x</b>, whose opening tag name a differs from its closing
tag name b: the rule never compares the two names. -/
theorem paired_rule_mismatch_cex :
    parsePattern "<[^>]+>[^<]*</[^>]+>" = some pairedRule ∧
    compiledRules.head? = some pairedRule ∧
    findTags pairedRule "<a>x</b>" = ["<a>x</b>"] ∧
    "<a>x</b>" ∈ tagsOf "<a>x</b>" ∧
    openTagName "<a>x</b>" = "a" ∧ closeTagName "<a>x</b>" = "b" ∧
    ("a" : String) ≠ "b" := by
  refine ⟨by decide, by decide, by decide, by decide, by decide, by decide, by decide⟩

/-- C6 amended: every candidate of the first rule is an opening
angle-bracket tag, followed by non-tag text, followed by SOME closing tag,
with no constraint relating the closing tag's text to the opening tag's. -/
theorem paired_rule_shape :
    ∀ s t r, matchItems pairedRule s = some (t, r) →
      ∃ A B C, t = '<' :: (A ++ '>' :: (B ++ '<' :: '/' :: (C ++ ['>']))) ∧
        A ≠ [] ∧ C ≠ [] ∧
        (∀ c ∈ A, c ≠ '>') ∧ (∀ c ∈ B, c ≠ '<') ∧ (∀ c ∈ C, c ≠ '>') := by
  intro s t r h
  simp only [pairedRule] at h
  obtain ⟨s1, hs1, t1, ht1, h⟩ := matchItems_one_lit '<' _ s t r h
  obtain ⟨hA, t2, ht2, h⟩ := matchItems_plus_inv _ _ s1 t1 r h
  obtain ⟨s2, hs2, t3, ht3, h⟩ := matchItems_one_lit '>' _ _ t2 r h
  obtain ⟨t4, ht4, h⟩ := matchItems_star_inv _ _ s2 t3 r h
  obtain ⟨s3, hs3, t5, ht5, h⟩ := matchItems_one_lit '<' _ _ t4 r h
  obtain ⟨s4, hs4, t6, ht6, h⟩ := matchItems_one_lit '/' _ _ t5 r h
  obtain ⟨hC, t7, ht7, h⟩ := matchItems_plus_inv _ _ s4 t6 r h
  obtain ⟨s5, hs5, t8, ht8, h⟩ := matchItems_one_lit '>' _ _ t7 r h
  have ht8nil : t8 = [] := by
    simp only [matchItems, Option.some.injEq, Prod.mk.injEq] at h
    rw [← h.1]
  refine ⟨s1.takeWhile (atomMatches (RAtom.cls ['>'] false)),
    s2.takeWhile (atomMatches (RAtom.cls ['<'] false)),
    s4.takeWhile (atomMatches (RAtom.cls ['>'] false)), ?_, hA, hC, ?_, ?_, ?_⟩
  · rw [ht1, ht2, ht3, ht4, ht5, ht6, ht7, ht8, ht8nil]
  · intro c hc
    have := mem_takeWhile_cls_ne ['>'] false s1 c hc
    simpa using this
  · intro c hc
    have := mem_takeWhile_cls_ne ['<'] false s2 c hc
    simpa using this
  · intro c hc
    have := mem_takeWhile_cls_ne ['>'] false s4 c hc
    simpa using this

/-- Witness for C6's amended statement at the mismatched-name candidate. -/
theorem paired_rule_shape_witness :
    ∃ A B C, "<a>x</b>".data = '<' :: (A ++ '>' :: (B ++ '<' :: '/' :: (C ++ ['>']))) ∧
      A ≠ [] ∧ C ≠ [] ∧
      (∀ c ∈ A, c ≠ '>') ∧ (∀ c ∈ B, c ≠ '<') ∧ (∀ c ∈ C, c ≠ '>') :=
  paired_rule_shape "<a>x</b>".data "<a>x</b>".data [] (by decide)

/-- C7: the extractor output is the concatenation, in the fixed rule order,
of each compiled rule's find_iter result; within each rule every emitted
pair is a genuine match at its position, the matches are ordered left to
right without overlap, every position where the rule matches is covered by
an emitted match, and candidates are accumulated across rules with no
deduplication. -/
theorem extractor_order_complete (v : String) :
    tagsOf v = (compiledRules.map (fun re => findTags re v)).flatten ∧
    ∀ re ∈ compiledRules,
      (∀ x ∈ findAllPos re v.data,
        matchItems re (v.data.drop x.1) = some (x.2, v.data.drop (x.1 + x.2.length))) ∧
      List.Chain' (fun a b => a.1 + a.2.length ≤ b.1) (findAllPos re v.data) ∧
      ∀ j, (matchItems re (v.data.drop j)).isSome →
        ∃ x ∈ findAllPos re v.data, x.1 ≤ j ∧ j < x.1 + x.2.length := by
  refine ⟨tagsOf_eq v, ?_⟩
  intro re hre
  have hmand : ∀ re2 ∈ compiledRules, mandatoryHead re2 = true := by decide
  have hc : ∀ s t r, matchItems re s = some (t, r) → t ++ r = s :=
    fun s t r h => matchItems_append re s t r h
  have hne : ∀ s t r, matchItems re s = some (t, r) → t ≠ [] :=
    fun s t r h => matchItems_ne_nil re (hmand re hre) s t r h
  refine ⟨?_, (findPosGo_chain (matchItems re) v.data.length 0 v.data).2, ?_⟩
  · intro x hx
    obtain ⟨k, hk, hmk⟩ := findPosGo_sound (matchItems re) hc hne v.data.length 0
      v.data (Nat.le_refl _) x.1 x.2 (by simpa using hx)
    rw [Nat.zero_add] at hk
    rw [hk]
    exact hmk
  · intro j hj
    obtain ⟨x, hmem, h1, h2⟩ := findPosGo_complete (matchItems re) hc hne
      v.data.length 0 v.data (Nat.le_refl _) j hj
    rw [Nat.zero_add] at h1 h2
    exact ⟨x, hmem, h1, h2⟩

/-- Witness for C7: the standalone-tag rule on a small value, applying the
completeness conjunct at position zero. -/
theorem extractor_order_complete_witness :
    ∃ x ∈ findAllPos [(RAtom.lit '<', RQuant.one), (RAtom.cls ['>'] false, RQuant.plus),
        (RAtom.lit '>', RQuant.one)] "<i>hi".data,
      x.1 ≤ 0 ∧ 0 < x.1 + x.2.length :=
  ((extractor_order_complete "<i>hi").2
    [(RAtom.lit '<', RQuant.one), (RAtom.cls ['>'] false, RQuant.plus),
     (RAtom.lit '>', RQuant.one)] (by decide)).2.2 0 (by decide)

/-- C8: in every state the dispatcher model can reach from the initial
batch state, at most K pipeline runs are in flight; and whenever URLs
remain pending with a free slot, a start step is enabled at once. -/
theorem concurrency_bound (run : String → String × String) (K : Nat)
    (urls : List String) (st : DState) (hK : 1 ≤ K)
    (h : DReach run K (dInit urls) st) :
    st.inflight.length ≤ K ∧
    (st.pending ≠ [] → st.inflight.length < K → ∃ st2, DStep run K st st2) := by
  constructor
  · have hinv : ∀ s t, DReach run K s t →
        s.inflight.length ≤ K → t.inflight.length ≤ K := by
      intro s t hreach
      induction hreach with
      | refl => exact fun h0 => h0
      | tail hab hbc ih =>
        intro h0
        have hb := ih h0
        cases hbc with
        | start u rest infl done hlt =>
          simpa using hlt
        | finish pend l1 l2 u done =>
          simp only [List.length_append, List.length_cons] at hb ⊢
          omega
    exact hinv _ _ h (by simp [dInit])
  · intro hpend hlt
    obtain ⟨p, i, d⟩ := st
    cases hp : p with
    | nil => exact absurd hp hpend
    | cons u rest =>
      subst hp
      exact ⟨⟨rest, u :: i, d⟩, DStep.start u rest i d hlt⟩

/-- Witness for C8 at the initial state of a one-URL batch with K one. -/
theorem concurrency_bound_witness :
    (dInit ["a"]).inflight.length ≤ 1 ∧
    ((dInit ["a"]).pending ≠ [] → (dInit ["a"]).inflight.length < 1 →
      ∃ st2, DStep (fun u => (u, u)) 1 (dInit ["a"]) st2) :=
  concurrency_bound (fun u => (u, u)) 1 ["a"] (dInit ["a"]) (by decide)
    Relation.ReflTransGen.refl

/-- C9: whenever the parameter loop reports a reflected tag, that tag
occurs literally in the fetched body and is one of the candidate tags
extracted from the decoded value of one of that same URL's query pairs. -/
theorem reflected_tag_sound (body : String) (pairs : List (String × String))
    (t : String) (h : scanParams body pairs = .ok (some t)) :
    containsStr body t = true ∧
    ∃ p ∈ pairs, ∃ dv, urldecode p.2 = some dv ∧ t ∈ tagsOf dv := by
  induction pairs with
  | nil => simp [scanParams] at h
  | cons q rest ih =>
    obtain ⟨k, v⟩ := q
    simp only [scanParams] at h
    cases hdv : urldecode v with
    | none =>
      simp only [hdv] at h
      exact absurd h (by simp)
    | some dv =>
      simp only [hdv] at h
      cases hf : (tagsOf dv).find? (fun s => containsStr body s) with
      | some t2 =>
        simp only [hf, Except.ok.injEq, Option.some.injEq] at h
        subst h
        exact ⟨List.find?_some hf,
          (k, v), List.mem_cons_self _ _, dv, hdv, List.mem_of_find?_eq_some hf⟩
      | none =>
        simp only [hf] at h
        obtain ⟨hcont, p, hp, dv2, hdv2, hmem⟩ := ih h
        exact ⟨hcont, p, List.mem_cons_of_mem _ hp, dv2, hdv2, hmem⟩

/-- Witness for C9 at a concrete reflected pair. -/
theorem reflected_tag_sound_witness :
    containsStr "xx<i>a</i>" "<i>a</i>" = true ∧
    ∃ p ∈ [("q", "<i>a</i>")], ∃ dv, urldecode p.2 = some dv ∧
      "<i>a</i>" ∈ tagsOf dv :=
  reflected_tag_sound "xx<i>a</i>" [("q", "<i>a</i>")] "<i>a</i>" (by rfl)

/-- C10: all eleven patterns of the table compile in the modelled regex
subset, so the skip-on-compile-failure branch of the extractor drops no
rule: the compiled table has exactly the eleven rules. -/
theorem patterns_all_compile :
    patternStrings.all (fun p => (parsePattern p).isSome) = true ∧
    compiledRules.length = patternStrings.length ∧
    patternStrings.length = 11 := by
  refine ⟨by decide, by decide, by decide⟩

end CrabXss
